import Mathlib

/-!
Verification of the chia-blockchain singleton / CAT-ring / pool-store core.

The development shallowly embeds the Python sources:
  * `chia/wallet/cat_wallet/cat_utils.py` (subtotals and the ring spend builder),
  * `chia/_tests/wallet/test_singleton_lifecycle_fast.py` (the `Solver` dispatch,
    `SingletonWallet.update_state`, `lineage_proof_for_coin_spend`),
  * the wallet pool store interface (`WalletPoolStore`), whose implementation file
    is not part of the sources here and is therefore modelled from the spec.

Machine hashes are modelled as collision-free: a tree hash is a faithful copy of
the hashed content, so `get_tree_hash` is the identity on `Program` and a coin id
is the constructor-packed triple of the coin's fields.  Committed-program
evaluation is owned by an external collaborator in the source; it is passed in
as an explicit evaluator function.  Python exceptions are modelled with
`Option`/`Except`.
-/

/-- Committed programs (CLVM values) as consumed by this core: opaque atoms,
cons pairs, and the distinguished curry wrapper.  `curried t a` stands for the
curry encoding `(a (q . t) (c (q . a1) ...))`; `uncurry` recovers `(t, a)`
exactly, and returns `(p, NIL)` on a program that is not in curry form, as the
Python `Program.uncurry` does. -/
inductive Program where
  | atom (n : Nat)
  | cons (head tail : Program)
  | curried (template args : Program)
deriving DecidableEq, Repr

/-- The CLVM nil value (the empty atom). -/
def Program.NIL : Program := .atom 0

/-- Tree hashing is modelled as collision-free, so the hash of a program is a
faithful copy of the program itself; program equality is tree-hash equality. -/
def Program.get_tree_hash (p : Program) : Program := p

/-- `list(args.as_iter())`: walk a cons-list into a Lean list. -/
def Program.asIter : Program → List Program
  | .cons h t => h :: t.asIter
  | _ => []

/-- Build a cons-list program from a Lean list (the `Program.to([...])` shape). -/
def Program.ofList : List Program → Program
  | [] => Program.NIL
  | h :: t => .cons h (Program.ofList t)

/-- `mod.curry(a1, ..., an)`: wrap a template with fixed leading arguments. -/
def Program.curry (template : Program) (args : List Program) : Program :=
  .curried template (Program.ofList args)

/-- `Program.uncurry`: exact inverse of `curry`; a program that is not in curry
form is returned unchanged with a NIL argument list. -/
def Program.uncurry : Program → Program × Program
  | .curried t a => (t, a)
  | p => (p, Program.NIL)

/-- Coin ids.  A coin id is the hash of the coin's own fields; with hashing
modelled as collision-free this is the constructor-packed triple.  `genesis`
ids stand for ids of coins created outside the modelled window. -/
inductive CoinId where
  | genesis (tag : Nat)
  | hashOf (parent : CoinId) (puzzle_hash : Program) (amount : Nat)
deriving DecidableEq, Repr

/-- `Coin`: `{parent_coin_info, puzzle_hash, amount}` (chia_rs `Coin`). -/
structure Coin where
  parent_coin_info : CoinId
  puzzle_hash : Program
  amount : Nat
deriving DecidableEq, Repr

/-- `coin.name()`: the coin id, i.e. the hash of the coin's fields. -/
def Coin.name (c : Coin) : CoinId :=
  .hashOf c.parent_coin_info c.puzzle_hash c.amount

theorem Coin.name_injective {a b : Coin} (h : a.name = b.name) : a = b := by
  cases a; cases b
  simp only [Coin.name, CoinId.hashOf.injEq] at h
  simp [h.1, h.2.1, h.2.2]

/-- `coin_as_list(c)`: the `[parent_coin_info, puzzle_hash, amount]` triple of a
coin, used verbatim as the `my_info` entry of a CAT solution; modelled by the
coin itself, which holds exactly those fields. -/
def coin_as_list (c : Coin) : Coin := c

/-- A coin spend: the coin, its puzzle reveal and its solution
(chia_rs `CoinSpend`). -/
structure CoinSpend where
  coin : Coin
  puzzle_reveal : Program
  solution : Program
deriving DecidableEq, Repr

section CatUtils

/-!  Embedding of `chia/wallet/cat_wallet/cat_utils.py`. -/

/-- `SpendableCAT` from `cat_utils.py`: the information needed to spend one CAT
coin.  `lineage_proof` is kept as the program produced by
`LineageProof.to_program()`, which the builder copies verbatim. -/
structure SpendableCAT where
  coin : Coin
  limitations_program_hash : Program
  inner_puzzle : Program
  inner_solution : Program
  limitations_solution : Program := Program.NIL
  lineage_proof : Program := Program.NIL
  extra_delta : Int := 0
  limitations_program_reveal : Program := Program.NIL
deriving DecidableEq, Repr

/-- The external CLVM evaluator as consumed by the ring builder
(`conditions_dict_for_solution`): from an inner puzzle and inner solution,
the CLVM integer amounts (`vars[1]`, as `as_int()`) of the CREATE_COIN
conditions the pair emits.  The melt marker byte `0x8f` is the canonical
encoding of `-113`, so the byte comparison of the source is the integer
comparison with `-113` here. -/
abbrev CatEvaluator := Program → Program → List Int

/-- The per-member delta computed by `unsigned_spend_bundle_for_spendable_cats`:
`total = extra_delta * -1 + Σ` non-melt CREATE_COIN amounts, and
`delta = coin.amount - total`. -/
def catDelta (ev : CatEvaluator) (spend_info : SpendableCAT) : Int :=
  let conditions := ev spend_info.inner_puzzle spend_info.inner_solution
  let total : Int :=
    spend_info.extra_delta * (-1) +
      (conditions.filter (fun a => a ≠ (-113 : Int))).sum
  (spend_info.coin.amount : Int) - total

/-- The delta list of a ring, in member order. -/
def catDeltas (ev : CatEvaluator) (spendable_cat_list : List SpendableCAT) : List Int :=
  spendable_cat_list.map (catDelta ev)

/-- The running-subtotal loop of `subtotals_for_deltas`:
`subtotals.append(subtotal); subtotal += delta`. -/
def subtotalsLoop (subtotal : Int) : List Int → List Int
  | [] => []
  | delta :: rest => subtotal :: subtotalsLoop (subtotal + delta) rest

/-- `min(...)` over a list, `none` on the empty list (where the Python `min`
raises `ValueError`). -/
def listMin : List Int → Option Int
  | [] => none
  | x :: xs => some (xs.foldl min x)

/-- `subtotals_for_deltas(deltas)` from `cat_utils.py`: running subtotals
shifted so the smallest value is 0.  On the empty list the Python code raises
(`min()` of an empty sequence), modelled as `none`. -/
def subtotals_for_deltas (deltas : List Int) : Option (List Int) :=
  let subtotals := subtotalsLoop 0 deltas
  match listMin subtotals with
  | none => none
  | some subtotal_offset => some (subtotals.map (fun s => s - subtotal_offset))

/-- `next_info_for_spendable_cat`: the `[parent_coin_info,
inner_puzzle_tree_hash, amount]` triple of a ring member. -/
structure CatNextInfo where
  parent_coin_info : CoinId
  inner_puzzle_hash : Program
  amount : Nat
deriving DecidableEq, Repr

def next_info_for_spendable_cat (spendable_cat : SpendableCAT) : CatNextInfo :=
  { parent_coin_info := spendable_cat.coin.parent_coin_info
    inner_puzzle_hash := spendable_cat.inner_puzzle.get_tree_hash
    amount := spendable_cat.coin.amount }

/-- `construct_cat_puzzle(mod_code, limitations_program_hash, inner_puzzle)`
with the default `mod_code_hash`. -/
def construct_cat_puzzle (mod_code limitations_program_hash inner_puzzle : Program) : Program :=
  mod_code.curry [mod_code.get_tree_hash, limitations_program_hash, inner_puzzle]

/-- The solution list built for one ring member: `[inner_solution,
lineage_proof, prev_id, my_info, next_info, subtotal, extra_delta]`.  The
source packs these into a CLVM list; the structure holds the same fields. -/
structure CatSolution where
  inner_solution : Program
  lineage_proof : Program
  prev_id : CoinId
  my_info : Coin
  next_info : CatNextInfo
  subtotal : Int
  extra_delta : Int
deriving DecidableEq, Repr

/-- One coin spend emitted by the ring builder (`make_spend(coin,
puzzle_reveal, solution)`). -/
structure CatSpend where
  coin : Coin
  puzzle_reveal : Program
  solution : CatSolution
deriving DecidableEq, Repr

/-- The two failure sites of `unsigned_spend_bundle_for_spendable_cats`: the
explicit `ValueError("input and output amounts don't match")` conservation
check, and the `ValueError` that `min()` raises inside `subtotals_for_deltas`
when the member list is empty. -/
inductive CatBuildErr where
  | unbalanced
  | emptySubtotals
deriving DecidableEq, Repr

instance : Inhabited CoinId := ⟨.genesis 0⟩
instance : Inhabited Program := ⟨Program.NIL⟩
instance : Inhabited Coin := ⟨⟨.genesis 0, Program.NIL, 0⟩⟩
instance : Inhabited CatNextInfo := ⟨⟨.genesis 0, Program.NIL, 0⟩⟩
instance : Inhabited SpendableCAT :=
  ⟨{ coin := default, limitations_program_hash := Program.NIL,
     inner_puzzle := Program.NIL, inner_solution := Program.NIL }⟩

/-- The loop body of `unsigned_spend_bundle_for_spendable_cats` for one
`index`: the `infos_for_next` / `infos_for_me` / `ids` lists the source
precomputes are pure functions of the member list, recomputed here in place.
The Python `(index - 1) % N` on a possibly negative numerator is
`(index + N - 1) % N` on naturals. -/
def catRingSpend (mod_code : Program) (spendable_cat_list : List SpendableCAT)
    (subtotals : List Int) (index : Nat) : CatSpend :=
  let N := spendable_cat_list.length
  let infos_for_next := spendable_cat_list.map next_info_for_spendable_cat
  let infos_for_me := spendable_cat_list.map (fun sc => coin_as_list sc.coin)
  let ids := spendable_cat_list.map (fun sc => sc.coin.name)
  let spend_info := spendable_cat_list.getD index default
  let puzzle_reveal :=
    construct_cat_puzzle mod_code spend_info.limitations_program_hash spend_info.inner_puzzle
  let prev_index := (index + N - 1) % N
  let next_index := (index + 1) % N
  let prev_id := ids.getD prev_index default
  let my_info := infos_for_me.getD index default
  let next_info := infos_for_next.getD next_index default
  { coin := spend_info.coin
    puzzle_reveal := puzzle_reveal
    solution :=
      { inner_solution := spend_info.inner_solution
        lineage_proof := spend_info.lineage_proof
        prev_id := prev_id
        my_info := my_info
        next_info := next_info
        subtotal := subtotals.getD index 0
        extra_delta := spend_info.extra_delta } }

/-- `unsigned_spend_bundle_for_spendable_cats(mod_code, spendable_cat_list)`
from `cat_utils.py`: compute the deltas, enforce conservation, compute the
normalized subtotals, and emit one spend per member in input order. -/
def unsigned_spend_bundle_for_spendable_cats (ev : CatEvaluator) (mod_code : Program)
    (spendable_cat_list : List SpendableCAT) : Except CatBuildErr (List CatSpend) :=
  let N := spendable_cat_list.length
  let deltas := catDeltas ev spendable_cat_list
  if deltas.sum ≠ 0 then
    .error .unbalanced
  else
    match subtotals_for_deltas deltas with
    | none => .error .emptySubtotals
    | some subtotals =>
      .ok ((List.range N).map (catRingSpend mod_code spendable_cat_list subtotals))

end CatUtils

section SingletonLifecycle

/-!  Embedding of the singleton tracker and solver of
`chia/_tests/wallet/test_singleton_lifecycle_fast.py`. -/

/-- The singleton top-layer template (`SINGLETON_MOD`), an opaque external
program, modelled as a designated atom. -/
def SINGLETON_MOD : Program := .atom 101

/-- The launcher puzzle hash (`SINGLETON_LAUNCHER_HASH`), an opaque external
hash, modelled as a designated atom distinct from every curried program. -/
def LAUNCHER_PUZZLE_HASH : Program := .atom 102

/-- `PuzzleDB`: a dictionary from tree hash to program.  `add_puzzle` keys a
program by its own tree hash, so the db is just a list of programs looked up
by hash. -/
abbrev PuzzleDB := List Program

/-- `PuzzleDB.puzzle_for_hash`: the stored program whose tree hash is
`puzzle_hash`, if any. -/
def PuzzleDB.puzzle_for_hash (db : PuzzleDB) (puzzle_hash : Program) : Option Program :=
  db.find? (fun p => p.get_tree_hash == puzzle_hash)

theorem puzzle_for_hash_eq {db : PuzzleDB} {h p : Program}
    (hfind : db.puzzle_for_hash h = some p) : p = h := by
  have := List.find?_some hfind
  simpa [Program.get_tree_hash] using this

theorem puzzle_for_hash_mem {db : PuzzleDB} {h : Program} (hmem : h ∈ db) :
    db.puzzle_for_hash h = some h := by
  induction db with
  | nil => cases hmem
  | cons p rest ih =>
    by_cases hp : p = h
    · subst hp
      simp [PuzzleDB.puzzle_for_hash, List.find?_cons_of_pos, Program.get_tree_hash]
    · have hmem' : h ∈ rest := by
        cases hmem with
        | head => exact absurd rfl hp
        | tail _ hm => exact hm
      have hrest : PuzzleDB.puzzle_for_hash rest h = some h := ih hmem'
      rw [PuzzleDB.puzzle_for_hash, List.find?_cons_of_neg]
      · exact hrest
      · simp [Program.get_tree_hash, hp]

/-- The lineage-proof values produced in the source as
`Program.to([parent_id, amount])` (launcher parent) and
`Program.to([parent_id, inner_puzzle_hash, amount])` (singleton parent).
Program equality of the two shapes is equality of these packed values. -/
inductive LineageProofValue where
  | ofLauncher (parent_coin_info : CoinId) (amount : Nat)
  | ofSingleton (parent_coin_info : CoinId) (inner_puzzle_hash : Program) (amount : Nat)
deriving DecidableEq, Repr

/-- The external evaluator behind `compute_additions`: from a puzzle reveal and
a solution, the `(puzzle_hash, amount)` pairs of the CREATE_COIN conditions the
full puzzle emits. -/
abbrev Evaluator := Program → Program → List (Program × Nat)

/-- `compute_additions(coin_spend)`: one child coin per CREATE_COIN condition,
with the spent coin's id as parent. -/
def compute_additions (ev : Evaluator) (coin_spend : CoinSpend) : List Coin :=
  (ev coin_spend.puzzle_reveal coin_spend.solution).map
    (fun pa => { parent_coin_info := coin_spend.coin.name, puzzle_hash := pa.1, amount := pa.2 })

/-- `SingletonWallet` from the lifecycle test: the singleton identity tracker. -/
structure SingletonWallet where
  launcher_id : CoinId
  launcher_puzzle_hash : Program
  key_value_list : Program
  current_state : Coin
  lineage_proof : LineageProofValue
deriving DecidableEq, Repr

/-- `SingletonWallet.inner_puzzle_for_puzzle`: asserts the puzzle matches the
current coin's puzzle hash, uncurries it, asserts the template is
`SINGLETON_MOD`, and unpacks exactly two curry arguments, returning the second
(the inner puzzle).  A failed Python `assert` or unpack is `none`. -/
def SingletonWallet.inner_puzzle_for_puzzle (w : SingletonWallet) (puzzle : Program) :
    Option Program :=
  if puzzle.get_tree_hash = w.current_state.puzzle_hash then
    let tp := puzzle.uncurry
    if tp.1 = SINGLETON_MOD then
      match tp.2.asIter with
      | [_, inner_puzzle] => some inner_puzzle
      | _ => none
    else none
  else none

/-- The inner loop of `update_state` over `compute_additions(coin_spend)`: for
each odd-amount child, look up the spent coin's puzzle, recover the inner
puzzle, store the new lineage proof `[current.parent_coin_info,
parent_inner_puzzle_hash, child.amount]`, move `current_state` to the child and
bump the count.  A failed lookup or assert aborts the whole call (`none`). -/
def updateAdditions (db : PuzzleDB) (spent : Coin) (additions : List Coin)
    (w : SingletonWallet) (count : Nat) : Option (SingletonWallet × Nat) :=
  match additions with
  | [] => some (w, count)
  | coin :: rest =>
    if coin.amount % 2 = 1 then
      match db.puzzle_for_hash spent.puzzle_hash with
      | none => none
      | some parent_puzzle =>
        match w.inner_puzzle_for_puzzle parent_puzzle with
        | none => none
        | some parent_inner_puzzle =>
          let w2 : SingletonWallet :=
            { w with
              lineage_proof := .ofSingleton w.current_state.parent_coin_info
                parent_inner_puzzle.get_tree_hash coin.amount
              current_state := coin }
          updateAdditions db spent rest w2 (count + 1)
    else
      updateAdditions db spent rest w count

/-- The outer loop of `update_state` over `removals`.  `current_coin_name` is
the name captured once at entry, not refreshed when the state advances. -/
def updateRemovals (ev : Evaluator) (db : PuzzleDB) (current_coin_name : CoinId)
    (removals : List CoinSpend) (w : SingletonWallet) (count : Nat) :
    Option (SingletonWallet × Nat) :=
  match removals with
  | [] => some (w, count)
  | coin_spend :: rest =>
    if coin_spend.coin.name = current_coin_name then
      match updateAdditions db coin_spend.coin (compute_additions ev coin_spend) w count with
      | none => none
      | some (w2, c2) => updateRemovals ev db current_coin_name rest w2 c2
    else
      updateRemovals ev db current_coin_name rest w count

/-- `SingletonWallet.update_state(puzzle_db, removals)`: scan the spend list
for spends of the current coin and advance the tracker, returning the updated
tracker and the state change count (`none` models an uncaught Python
exception). -/
def SingletonWallet.update_state (ev : Evaluator) (db : PuzzleDB) (w : SingletonWallet)
    (removals : List CoinSpend) : Option (SingletonWallet × Nat) :=
  updateRemovals ev db w.current_state.name removals w 0

/-- `lineage_proof_for_coin_spend(coin_spend)`: `[parent, amount]` for a
launcher spend; otherwise uncurry the puzzle reveal, unpack exactly four curry
arguments (a Python `ValueError` when the count differs, modelled as `none`)
and return `[parent, inner_puzzle_hash, amount]` built from the fourth argument
and the spent coin's own amount. -/
def lineage_proof_for_coin_spend (coin_spend : CoinSpend) : Option LineageProofValue :=
  let coin := coin_spend.coin
  if coin.puzzle_hash = LAUNCHER_PUZZLE_HASH then
    some (.ofLauncher coin.parent_coin_info coin.amount)
  else
    let ta := coin_spend.puzzle_reveal.uncurry
    match ta.2.asIter with
    | [_, _, _, inner_puzzle] =>
      some (.ofSingleton coin.parent_coin_info inner_puzzle.get_tree_hash coin.amount)
    | _ => none

/-- The solver registry of the lifecycle test, generic over the builder type:
the Python value is a function, of which the dispatch logic used by the claims
is independent. -/
structure Solver (β : Type) where
  solvers_by_puzzle_hash : List (Program × β)

/-- Dictionary lookup in the registry (`self.solvers_by_puzzle_hash.get`). -/
def Solver.lookup (s : Solver β) (puzzle_hash : Program) : Option β :=
  (s.solvers_by_puzzle_hash.find? (fun e => e.1 == puzzle_hash)).map (fun e => e.2)

/-- The failure of `Solver.solve` (`ValueError("can't solve")`). -/
inductive SolverErr where
  | noSolver
deriving DecidableEq, Repr

/-- `Solver.solve(puzzle_db, puzzle, **kwargs)`: resolve the puzzle's own tree
hash; if unregistered, uncurry and resolve the template's tree hash with the
recovered curry arguments.  The result is the single builder selected together
with the argument list handed to it (builder invocation itself is the
externally supplied function). -/
def Solver.solve (s : Solver β) (puzzle : Program) : Except SolverErr (β × List Program) :=
  let puzzle_hash := puzzle.get_tree_hash
  let hashArgs : Program × List Program :=
    if (s.lookup puzzle_hash).isSome then
      (puzzle_hash, [])
    else
      let ta := puzzle.uncurry
      (ta.1.get_tree_hash, ta.2.asIter)
  match s.lookup hashArgs.1 with
  | some solver_f => .ok (solver_f, hashArgs.2)
  | none => .error .noSolver

end SingletonLifecycle

section PoolStore

/-!  The wallet pool store.  The implementation file
(`chia/wallet/wallet_pool_store.py`) is not among the sources here — only its
test is — so the store is modelled from the spec (section 4.5, Ledger Log
Store). -/

/-- Modelled from the spec: a spend as stored by the pool store.  The store
keys entries by the spend's coin id; the rest of the spend is an opaque
payload. -/
structure PoolSpend where
  coin_id : Nat
  payload : Nat := 0
deriving DecidableEq, Repr

/-- Modelled from the spec: one row of the height-indexed log, keyed by
`(wallet_id, coin_id)` with a height column and the serialized spend. -/
structure PoolLogEntry where
  wallet_id : Nat
  coin_id : Nat
  height : Nat
  payload : Nat
deriving DecidableEq, Repr

/-- Modelled from the spec: the store state is the table rows in insertion
order.  Appends enforce height monotonicity per wallet, so for a fixed wallet
the insertion order is also the height order required of `get_spends_for_wallet`. -/
abbrev WalletPoolStore := List PoolLogEntry

/-- Modelled from the spec: the row for `(wallet_id, coin_id)`, if any. -/
def WalletPoolStore.findEntry (s : WalletPoolStore) (wallet_id coin_id : Nat) :
    Option PoolLogEntry :=
  s.find? (fun e => e.wallet_id == wallet_id && e.coin_id == coin_id)

/-- Modelled from the spec: the wallet's cached peak height.  The cache always
equals the highest height among the wallet's rows (appends only ever add at or
above it and `rollback`/`delete_wallet` recompute it from the remaining rows),
so it is represented by that maximum — `none` when the wallet has no rows. -/
def WalletPoolStore.peak_height (s : WalletPoolStore) (wallet_id : Nat) : Option Nat :=
  match (s.filter (fun e => e.wallet_id == wallet_id)).map (fun e => e.height) with
  | [] => none
  | h :: t => some (t.foldl max h)

/-- Modelled from the spec: the two failures of `add_spend` —
`HeightConflictError` (same `(owner, coin_id)` at a different height) and
`NonMonotonicHeightError` (a fresh append strictly below the cached peak). -/
inductive PoolStoreErr where
  | heightConflict
  | nonMonotonicHeight
deriving DecidableEq, Repr

/-- Modelled from the spec: `add_spend(wallet_id, spend, height)`.  Idempotent
no-op when the identical `(wallet_id, coin_id, height)` triple exists; a
`HeightConflictError` when `(wallet_id, coin_id)` exists at another height; a
`NonMonotonicHeightError` when the triple is fresh but `height` is strictly
below the wallet's peak; otherwise the row is appended.  An error leaves the
stored rows unchanged (no new store is produced). -/
def WalletPoolStore.add_spend (s : WalletPoolStore) (wallet_id : Nat) (spend : PoolSpend)
    (height : Nat) : Except PoolStoreErr WalletPoolStore :=
  match s.findEntry wallet_id spend.coin_id with
  | some e =>
    if e.height = height then .ok s else .error .heightConflict
  | none =>
    match s.peak_height wallet_id with
    | some peak =>
      if height < peak then .error .nonMonotonicHeight
      else .ok (s ++ [⟨wallet_id, spend.coin_id, height, spend.payload⟩])
    | none => .ok (s ++ [⟨wallet_id, spend.coin_id, height, spend.payload⟩])

/-- Modelled from the spec: `rollback(height, wallet_id)` removes every row of
the wallet with height strictly greater than the target; rows of other wallets
and rows at or below the target stay.  The cached peak is recomputed from the
remaining rows, which the derived `peak_height` does by construction. -/
def WalletPoolStore.rollback (s : WalletPoolStore) (height : Nat) (wallet_id : Nat) :
    WalletPoolStore :=
  s.filter (fun e => !(e.wallet_id == wallet_id && height < e.height))

/-- Modelled from the spec: `get_spends_for_wallet(wallet_id)`, the wallet's
`(height, spend)` rows ordered by height then insertion order — which is
insertion order, by the append monotonicity invariant. -/
def WalletPoolStore.get_spends_for_wallet (s : WalletPoolStore) (wallet_id : Nat) :
    List (Nat × PoolSpend) :=
  (s.filter (fun e => e.wallet_id == wallet_id)).map
    (fun e => (e.height, { coin_id := e.coin_id, payload := e.payload }))

/-- Modelled from the spec: `delete_wallet(wallet_id)` removes all rows of the
wallet; idempotent. -/
def WalletPoolStore.delete_wallet (s : WalletPoolStore) (wallet_id : Nat) : WalletPoolStore :=
  s.filter (fun e => !(e.wallet_id == wallet_id))

end PoolStore

/-!  Helper lemmas about the running-subtotal computation, shared by the
subtotal and ring-builder theorems. -/

theorem subtotalsLoop_length (a : Int) (l : List Int) :
    (subtotalsLoop a l).length = l.length := by
  induction l generalizing a with
  | nil => rfl
  | cons d rest ih => simp [subtotalsLoop, ih]

theorem subtotalsLoop_getElem (l : List Int) :
    ∀ (a : Int) (i : Nat) (hi : i < (subtotalsLoop a l).length),
      (subtotalsLoop a l)[i] = a + (l.take i).sum := by
  induction l with
  | nil => intro a i hi; simp [subtotalsLoop] at hi
  | cons d rest ih =>
    intro a i hi
    cases i with
    | zero => simp [subtotalsLoop]
    | succ j =>
      have hj : j < (subtotalsLoop (a + d) rest).length := by
        simpa [subtotalsLoop] using hi
      have := ih (a + d) j hj
      simp only [subtotalsLoop, List.getElem_cons_succ, this, List.take_succ_cons,
        List.sum_cons]
      ring


theorem foldl_min_mem (xs : List Int) : ∀ x : Int, xs.foldl min x ∈ x :: xs := by
  induction xs with
  | nil => intro x; simp
  | cons y ys ih =>
    intro x
    have hfold : (y :: ys).foldl min x = ys.foldl min (min x y) := by
      simp [List.foldl_cons]
    rw [hfold]
    rcases List.mem_cons.mp (ih (min x y)) with hc | hc
    · rw [hc]
      rcases min_cases x y with ⟨he, _⟩ | ⟨he, _⟩
      · rw [he]; exact List.mem_cons_self _ _
      · rw [he]
        exact List.mem_cons.mpr (Or.inr (List.mem_cons_self _ _))
    · exact List.mem_cons.mpr (Or.inr (List.mem_cons.mpr (Or.inr hc)))

theorem foldl_min_le (xs : List Int) :
    ∀ (x y : Int), y ∈ x :: xs → xs.foldl min x ≤ y := by
  induction xs with
  | nil =>
    intro x y hy
    have hyx : y = x := by simpa using hy
    simp [hyx]
  | cons z zs ih =>
    intro x y hy
    have hfold : (z :: zs).foldl min x = zs.foldl min (min x z) := by
      simp [List.foldl_cons]
    rw [hfold]
    have hinit : zs.foldl min (min x z) ≤ min x z :=
      ih (min x z) (min x z) (List.mem_cons_self _ _)
    rcases List.mem_cons.mp hy with hc | hc
    · rw [hc]
      exact le_trans hinit (min_le_left _ _)
    · rcases List.mem_cons.mp hc with hc2 | hc2
      · rw [hc2]
        exact le_trans hinit (min_le_right _ _)
      · exact ih (min x z) y (List.mem_cons.mpr (Or.inr hc2))

theorem listMin_mem {l : List Int} {m : Int} (h : listMin l = some m) : m ∈ l := by
  cases l with
  | nil => cases h
  | cons x xs =>
    have hfold : xs.foldl min x = m := by simpa [listMin] using h
    simpa [hfold] using foldl_min_mem xs x

theorem listMin_le {l : List Int} {m : Int} (h : listMin l = some m) :
    ∀ x ∈ l, m ≤ x := by
  intro y hy
  cases l with
  | nil => cases h
  | cons x xs =>
    have hfold : xs.foldl min x = m := by simpa [listMin] using h
    have := foldl_min_le xs x y hy
    simpa [hfold] using this

/-- The shape of `subtotals_for_deltas` on a non-empty input, shared by the
subtotal and ring-builder theorems: it returns the prefix sums shifted by
their minimum, so every entry is the corresponding prefix sum minus one
constant, the minimum value 0 is attained, and no entry is negative. -/
theorem subtotals_for_deltas_shape (deltas : List Int) (hne : deltas ≠ []) :
    ∃ (l : List Int) (c : Int), subtotals_for_deltas deltas = some l ∧
      l.length = deltas.length ∧
      (∀ (i : Nat) (hi : i < l.length), l[i] = (deltas.take i).sum - c) ∧
      0 ∈ l ∧ (∀ x ∈ l, 0 ≤ x) := by
  cases deltas with
  | nil => exact absurd rfl hne
  | cons d ds =>
    have hcons : subtotalsLoop 0 (d :: ds) = 0 :: subtotalsLoop (0 + d) ds := rfl
    obtain ⟨m, hm⟩ : ∃ m, listMin (subtotalsLoop 0 (d :: ds)) = some m :=
      ⟨_, by rw [hcons]; rfl⟩
    refine ⟨(subtotalsLoop 0 (d :: ds)).map (fun s => s - m), m, ?_, ?_, ?_, ?_, ?_⟩
    · simp [subtotals_for_deltas, hm]
    · simp [subtotalsLoop_length]
    · intro i hi
      have hi2 : i < (subtotalsLoop 0 (d :: ds)).length := by simpa using hi
      have hval := subtotalsLoop_getElem (d :: ds) 0 i hi2
      simp only [List.getElem_map]
      omega
    · have hmem := listMin_mem hm
      have hz : m - m ∈ (subtotalsLoop 0 (d :: ds)).map (fun s => s - m) :=
        List.mem_map_of_mem (fun s => s - m) hmem
      simpa using hz
    · intro x hx
      obtain ⟨s, hs, hsx⟩ := List.mem_map.mp hx
      have := listMin_le hm s hs
      omega

/-- Claim C4: for every non-empty list of integer deltas,
`subtotals_for_deltas` returns a list of the same length whose element `i` is
the prefix sum `delta[0] + ... + delta[i-1]` shifted by a single constant
offset, and the minimum of the returned list is exactly 0 (the value 0 is
attained and bounds the list below). -/
theorem subtotals_for_deltas_spec (deltas : List Int) (hne : deltas ≠ []) :
    ∃ (l : List Int) (c : Int), subtotals_for_deltas deltas = some l ∧
      l.length = deltas.length ∧
      (∀ (i : Nat) (hi : i < l.length), l[i] = (deltas.take i).sum - c) ∧
      0 ∈ l ∧ (∀ x ∈ l, 0 ≤ x) :=
  subtotals_for_deltas_shape deltas hne

/-- Witness for C4 at the concrete input `[3, -1, -2]`. -/
theorem subtotals_for_deltas_spec_witness :
    ∃ (l : List Int) (c : Int), subtotals_for_deltas [3, -1, -2] = some l ∧
      l.length = ([3, -1, -2] : List Int).length ∧
      (∀ (i : Nat) (hi : i < l.length), l[i] = (([3, -1, -2] : List Int).take i).sum - c) ∧
      0 ∈ l ∧ (∀ x ∈ l, 0 ≤ x) :=
  subtotals_for_deltas_spec [3, -1, -2] (by decide)

/-- The CAT template program (`CAT_MOD`), an opaque external program. -/
def CAT_MOD : Program := .atom 103

theorem catDeltas_length (ev : CatEvaluator) (scs : List SpendableCAT) :
    (catDeltas ev scs).length = scs.length := by
  simp [catDeltas]

/-- On a balanced non-empty ring the builder reaches the `.ok` branch; the
spend list is the indexed map over `range N`. -/
theorem unsigned_spend_bundle_ok (ev : CatEvaluator) (mod_code : Program)
    (scs : List SpendableCAT) (hne : scs ≠ []) (hsum : (catDeltas ev scs).sum = 0) :
    ∃ out, unsigned_spend_bundle_for_spendable_cats ev mod_code scs = .ok out ∧
      out.length = scs.length ∧
      out.map (fun cs => cs.coin) = scs.map (fun sc => sc.coin) := by
  have hdne : catDeltas ev scs ≠ [] := by
    cases scs with
    | nil => exact absurd rfl hne
    | cons a t => simp [catDeltas]
  obtain ⟨l, c, hsome, -, -, -, -⟩ := subtotals_for_deltas_shape (catDeltas ev scs) hdne
  have husb : unsigned_spend_bundle_for_spendable_cats ev mod_code scs
      = .ok ((List.range scs.length).map (catRingSpend mod_code scs l)) := by
    simp only [unsigned_spend_bundle_for_spendable_cats, hsum, hsome]
    simp
  refine ⟨(List.range scs.length).map (catRingSpend mod_code scs l), husb, ?_, ?_⟩
  · simp
  · apply List.ext_getElem
    · simp
    · intro i h1 h2
      have hi : i < scs.length := by simpa using h2
      simp [catRingSpend, List.getD_eq_getElem _ _ hi, List.getElem?_eq_getElem hi]

/-- Claim C3 (amended to non-empty member lists): the ring builder fails with
the conservation-check error exactly when the member deltas do not sum to
zero, and on a balanced non-empty ring it succeeds with one spend per member,
order-preserving with the input (the coin of output `i` is the coin of member
`i`). -/
theorem unsigned_spend_bundle_balance_spec (ev : CatEvaluator) (mod_code : Program)
    (scs : List SpendableCAT) (hne : scs ≠ []) :
    (unsigned_spend_bundle_for_spendable_cats ev mod_code scs = .error .unbalanced
      ↔ (catDeltas ev scs).sum ≠ 0) ∧
    ((catDeltas ev scs).sum = 0 →
      ∃ out, unsigned_spend_bundle_for_spendable_cats ev mod_code scs = .ok out ∧
        out.length = scs.length ∧
        out.map (fun cs => cs.coin) = scs.map (fun sc => sc.coin)) := by
  constructor
  · constructor
    · intro herr hsum
      obtain ⟨out, hok, _, _⟩ := unsigned_spend_bundle_ok ev mod_code scs hne hsum
      rw [hok] at herr
      cases herr
    · intro hsum
      simp [unsigned_spend_bundle_for_spendable_cats, hsum]
  · exact unsigned_spend_bundle_ok ev mod_code scs hne

/-- Witness for C3 at a concrete balanced two-member ring. -/
def catWitnessEv : CatEvaluator := fun p _ =>
  match p with
  | .atom 11 => [3]
  | .atom 12 => [7]
  | _ => []

def catMember1 : SpendableCAT :=
  { coin := ⟨.genesis 1, .atom 21, 5⟩
    limitations_program_hash := .atom 31
    inner_puzzle := .atom 11
    inner_solution := Program.NIL }

def catMember2 : SpendableCAT :=
  { coin := ⟨.genesis 2, .atom 22, 5⟩
    limitations_program_hash := .atom 31
    inner_puzzle := .atom 12
    inner_solution := Program.NIL }

theorem unsigned_spend_bundle_balance_spec_witness :
    (unsigned_spend_bundle_for_spendable_cats catWitnessEv CAT_MOD [catMember1, catMember2]
        = .error .unbalanced
      ↔ (catDeltas catWitnessEv [catMember1, catMember2]).sum ≠ 0) ∧
    ((catDeltas catWitnessEv [catMember1, catMember2]).sum = 0 →
      ∃ out, unsigned_spend_bundle_for_spendable_cats catWitnessEv CAT_MOD
          [catMember1, catMember2] = .ok out ∧
        out.length = ([catMember1, catMember2] : List SpendableCAT).length ∧
        out.map (fun cs => cs.coin)
          = ([catMember1, catMember2] : List SpendableCAT).map (fun sc => sc.coin)) :=
  unsigned_spend_bundle_balance_spec catWitnessEv CAT_MOD [catMember1, catMember2] (by decide)

/-- Counterexample to claim C3 as stated for every member list: on the empty
list the deltas sum to zero, yet the builder does not succeed — it fails, with
the empty-minimum error rather than the conservation error. -/
theorem unsigned_spend_bundle_empty_counterexample :
    (catDeltas catWitnessEv []).sum = 0 ∧
    unsigned_spend_bundle_for_spendable_cats catWitnessEv CAT_MOD []
      = .error .emptySubtotals :=
  ⟨rfl, rfl⟩

/-- Counterexample to claim C10: called with an empty member list the builder
does not return an empty spend bundle — it raises (the `min()` of the empty
subtotal list), modelled as the `.emptySubtotals` error, which in particular
is not `.ok []`. -/
theorem unsigned_spend_bundle_empty_no_bundle_counterexample :
    unsigned_spend_bundle_for_spendable_cats (fun _ _ => []) CAT_MOD []
        = .error .emptySubtotals ∧
    unsigned_spend_bundle_for_spendable_cats (fun _ _ => []) CAT_MOD [] ≠ .ok [] := by
  constructor
  · rfl
  · intro h
    cases h

/-- Claim C10 (amended): on the empty member list the conservation check
passes vacuously (the empty delta sum is zero, so the `UnbalancedRingError`
site is not reached), but the builder then fails computing the subtotal
minimum of the empty list; no spend bundle is returned. -/
theorem unsigned_spend_bundle_empty_fails_spec :
    (catDeltas (fun _ _ => []) []).sum = 0 ∧
    unsigned_spend_bundle_for_spendable_cats (fun _ _ => []) CAT_MOD []
        ≠ .error .unbalanced ∧
    unsigned_spend_bundle_for_spendable_cats (fun _ _ => []) CAT_MOD []
        = .error .emptySubtotals := by
  refine ⟨rfl, ?_, rfl⟩
  intro h
  have h2 : (Except.error CatBuildErr.emptySubtotals :
      Except CatBuildErr (List CatSpend)) = .error .unbalanced := h
  simp at h2

/-!  Helper lemmas about `update_state`, shared by the tracker theorems. -/

/-- A spend whose additions are all even-amount leaves the tracker and the
count unchanged (the melt path: nothing continues the identity). -/
theorem updateAdditions_all_even (db : PuzzleDB) (spent : Coin) :
    ∀ (adds : List Coin) (w : SingletonWallet) (n : Nat),
      (∀ a ∈ adds, a.amount % 2 = 0) →
      updateAdditions db spent adds w n = some (w, n) := by
  intro adds
  induction adds with
  | nil => intro w n _; rfl
  | cons a rest ih =>
    intro w n heven
    have ha : a.amount % 2 = 0 := heven a (List.mem_cons_self _ _)
    have hodd : ¬(a.amount % 2 = 1) := by omega
    simp only [updateAdditions, if_neg hodd]
    exact ih w n (fun b hb => heven b (List.mem_cons.mpr (Or.inr hb)))

/-- When the inner loop returns, the count grew by exactly the number of
odd-amount additions. -/
theorem updateAdditions_count (db : PuzzleDB) (spent : Coin) :
    ∀ (adds : List Coin) (w : SingletonWallet) (n : Nat) (r : SingletonWallet × Nat),
      updateAdditions db spent adds w n = some r →
      r.2 = n + adds.countP (fun a => a.amount % 2 == 1) := by
  intro adds
  induction adds with
  | nil =>
    intro w n r h
    have : r = (w, n) := by simpa [updateAdditions] using h.symm
    simp [this]
  | cons a rest ih =>
    intro w n r h
    by_cases hodd : a.amount % 2 = 1
    · cases hdb : db.puzzle_for_hash spent.puzzle_hash with
      | none =>
        simp only [updateAdditions, if_pos hodd, hdb] at h
        cases h
      | some parent_puzzle =>
        cases hip : SingletonWallet.inner_puzzle_for_puzzle w parent_puzzle with
        | none =>
          simp only [updateAdditions, if_pos hodd, hdb, hip] at h
          cases h
        | some inner =>
          simp only [updateAdditions, if_pos hodd, hdb, hip] at h
          have := ih _ _ _ h
          have hcnt : (a :: rest).countP (fun a => a.amount % 2 == 1)
              = rest.countP (fun a => a.amount % 2 == 1) + 1 :=
            List.countP_cons_of_pos _ _ (by simpa using hodd)
          omega
    · simp only [updateAdditions, if_neg hodd] at h
      have := ih _ _ _ h
      have hcnt : (a :: rest).countP (fun a => a.amount % 2 == 1)
          = rest.countP (fun a => a.amount % 2 == 1) :=
        List.countP_cons_of_neg _ _ (by simpa using hodd)
      omega

/-- The inner loop on an addition list with exactly one odd child `c`, in the
well-formed environment (the spent coin is the tracker's current coin, its
puzzle is in the db and is a two-argument curry of the singleton template):
the tracker advances to `c` with the recomputed lineage proof. -/
theorem updateAdditions_single_odd (db : PuzzleDB) (spent : Coin) (st ip : Program) (c : Coin) :
    ∀ (adds : List Coin) (w : SingletonWallet) (n : Nat),
      spent.puzzle_hash = w.current_state.puzzle_hash →
      w.current_state.puzzle_hash ∈ db →
      w.current_state.puzzle_hash
        = .curried SINGLETON_MOD (.cons st (.cons ip Program.NIL)) →
      adds.filter (fun a => a.amount % 2 == 1) = [c] →
      updateAdditions db spent adds w n =
        some ({ w with
                lineage_proof := .ofSingleton w.current_state.parent_coin_info
                  ip.get_tree_hash c.amount
                current_state := c }, n + 1) := by
  intro adds
  induction adds with
  | nil => intro w n _ _ _ hf; cases hf
  | cons a rest ih =>
    intro w n hhash hdb hshape hf
    by_cases hodd : a.amount % 2 = 1
    · have hf2 : a = c ∧ rest.filter (fun a => a.amount % 2 == 1) = [] := by
        rw [List.filter_cons_of_pos (by simpa using hodd)] at hf
        simpa only [List.cons.injEq] using hf
      obtain ⟨hac, hrest⟩ := hf2
      subst hac
      have hlook : db.puzzle_for_hash spent.puzzle_hash = some w.current_state.puzzle_hash := by
        rw [hhash]; exact puzzle_for_hash_mem hdb
      have hip : SingletonWallet.inner_puzzle_for_puzzle w w.current_state.puzzle_hash
          = some ip := by
        simp only [SingletonWallet.inner_puzzle_for_puzzle, Program.get_tree_hash, if_pos rfl]
        rw [hshape]
        simp [Program.uncurry, Program.asIter, Program.NIL]
      simp only [updateAdditions, if_pos hodd, hlook, hip]
      have heven : ∀ b ∈ rest, b.amount % 2 = 0 := by
        intro b hb
        have := List.filter_eq_nil_iff.mp hrest b hb
        simp at this
        omega
      exact updateAdditions_all_even db spent rest _ _ heven
    · have hf2 : rest.filter (fun a => a.amount % 2 == 1) = [c] := by
        rwa [List.filter_cons_of_neg (by simpa using hodd)] at hf
      simp only [updateAdditions, if_neg hodd]
      exact ih w n hhash hdb hshape hf2

/-- The outer loop skips every spend that does not consume the captured
current coin name. -/
theorem updateRemovals_no_match (ev : Evaluator) (db : PuzzleDB) (name : CoinId) :
    ∀ (removals : List CoinSpend) (w : SingletonWallet) (n : Nat),
      (∀ cs ∈ removals, cs.coin.name ≠ name) →
      updateRemovals ev db name removals w n = some (w, n) := by
  intro removals
  induction removals with
  | nil => intro w n _; rfl
  | cons cs rest ih =>
    intro w n hno
    have hcs : cs.coin.name ≠ name := hno cs (List.mem_cons_self _ _)
    simp only [updateRemovals, if_neg hcs]
    exact ih w n (fun x hx => hno x (List.mem_cons.mpr (Or.inr hx)))

/-- A prefix of non-matching spends can be dropped from the outer loop. -/
theorem updateRemovals_skip_prefix (ev : Evaluator) (db : PuzzleDB) (name : CoinId) :
    ∀ (pre rest : List CoinSpend) (w : SingletonWallet) (n : Nat),
      (∀ cs ∈ pre, cs.coin.name ≠ name) →
      updateRemovals ev db name (pre ++ rest) w n = updateRemovals ev db name rest w n := by
  intro pre
  induction pre with
  | nil => intro rest w n _; rfl
  | cons cs tail ih =>
    intro rest w n hno
    have hcs : cs.coin.name ≠ name := hno cs (List.mem_cons_self _ _)
    simp only [List.cons_append, updateRemovals, if_neg hcs]
    exact ih rest w n (fun x hx => hno x (List.mem_cons.mpr (Or.inr hx)))

/-- The outer loop returns the tracker unchanged with a zero net count change
when every matching spend has only even-amount children. -/
theorem updateRemovals_all_even (ev : Evaluator) (db : PuzzleDB) (name : CoinId) :
    ∀ (removals : List CoinSpend) (w : SingletonWallet) (n : Nat),
      (∀ cs ∈ removals, cs.coin.name = name →
        ∀ a ∈ compute_additions ev cs, a.amount % 2 = 0) →
      updateRemovals ev db name removals w n = some (w, n) := by
  intro removals
  induction removals with
  | nil => intro w n _; rfl
  | cons cs rest ih =>
    intro w n hall
    by_cases hm : cs.coin.name = name
    · have heven := hall cs (List.mem_cons_self _ _) hm
      have hupd := updateAdditions_all_even db cs.coin (compute_additions ev cs) w n heven
      simp only [updateRemovals, if_pos hm, hupd]
      exact ih w n (fun x hx hxn => hall x (List.mem_cons.mpr (Or.inr hx)) hxn)
    · simp only [updateRemovals, if_neg hm]
      exact ih w n (fun x hx hxn => hall x (List.mem_cons.mpr (Or.inr hx)) hxn)

/-- When each spend creates at most one odd child, the outer loop adds at most
one count per spend matching the captured name. -/
theorem updateRemovals_count_le (ev : Evaluator) (db : PuzzleDB) (name : CoinId) :
    ∀ (removals : List CoinSpend) (w : SingletonWallet) (n : Nat) (r : SingletonWallet × Nat),
      (∀ cs ∈ removals,
        (compute_additions ev cs).countP (fun a => a.amount % 2 == 1) ≤ 1) →
      updateRemovals ev db name removals w n = some r →
      r.2 ≤ n + removals.countP (fun cs => cs.coin.name == name) := by
  intro removals
  induction removals with
  | nil =>
    intro w n r _ h
    have hr : r = (w, n) := by simpa [updateRemovals] using h.symm
    simp [hr]
  | cons cs rest ih =>
    intro w n r hone h
    by_cases hm : cs.coin.name = name
    · cases hupd : updateAdditions db cs.coin (compute_additions ev cs) w n with
      | none =>
        simp only [updateRemovals, if_pos hm, hupd] at h
        cases h
      | some p =>
        obtain ⟨w2, c2⟩ := p
        simp only [updateRemovals, if_pos hm, hupd] at h
        have hc2 : c2 = n + (compute_additions ev cs).countP (fun a => a.amount % 2 == 1) :=
          updateAdditions_count db cs.coin _ _ _ _ hupd
        have hcs1 := hone cs (List.mem_cons_self _ _)
        have hr := ih w2 c2 r (fun x hx => hone x (List.mem_cons.mpr (Or.inr hx))) h
        have hcnt : (cs :: rest).countP (fun x => x.coin.name == name)
            = rest.countP (fun x => x.coin.name == name) + 1 :=
          List.countP_cons_of_pos _ _ (by simpa using hm)
        omega
    · simp only [updateRemovals, if_neg hm] at h
      have hr := ih w n r (fun x hx => hone x (List.mem_cons.mpr (Or.inr hx))) h
      have hcnt : (cs :: rest).countP (fun x => x.coin.name == name)
          = rest.countP (fun x => x.coin.name == name) :=
        List.countP_cons_of_neg _ _ (by simpa using hm)
      omega

/-- In a spend list with pairwise-distinct coin ids, at most one spend matches
any fixed coin id. -/
theorem countP_name_le_one (name : CoinId) :
    ∀ (l : List CoinSpend), l.Pairwise (fun a b => a.coin.name ≠ b.coin.name) →
      l.countP (fun cs => cs.coin.name == name) ≤ 1 := by
  intro l
  induction l with
  | nil => intro _; simp
  | cons x rest ih =>
    intro hp
    have hx : ∀ b ∈ rest, x.coin.name ≠ b.coin.name := (List.pairwise_cons.mp hp).1
    have hrest := (List.pairwise_cons.mp hp).2
    by_cases hm : x.coin.name = name
    · have hz : rest.countP (fun cs => cs.coin.name == name) = 0 := by
        rw [List.countP_eq_zero]
        intro b hb
        have hxb := hx b hb
        simp only [beq_iff_eq]
        intro hbn
        exact hxb (hm.trans hbn.symm)
      rw [List.countP_cons_of_pos _ _ (by simpa using hm), hz]
    · rw [List.countP_cons_of_neg _ _ (by simpa using hm)]
      exact ih hrest

/-- Claim C5: when `update_state` finds the (unique) spend consuming the
tracker's current coin and no child of that spend has an odd amount, the call
reports zero state changes and leaves `current_state` and `lineage_proof`
unchanged — the observable content of the transition to the terminal `Melted`
state (the code keeps no extra flag: melted is exactly "current coin spent,
nothing continued"). -/
theorem update_state_melt_spec (ev : Evaluator) (db : PuzzleDB) (w : SingletonWallet)
    (r1 r2 : List CoinSpend) (cs : CoinSpend)
    (h1 : ∀ x ∈ r1, x.coin.name ≠ w.current_state.name)
    (h2 : ∀ x ∈ r2, x.coin.name ≠ w.current_state.name)
    (hname : cs.coin.name = w.current_state.name)
    (heven : ∀ a ∈ compute_additions ev cs, a.amount % 2 = 0) :
    w.update_state ev db (r1 ++ cs :: r2) = some (w, 0) := by
  rw [SingletonWallet.update_state, updateRemovals_skip_prefix ev db _ r1 _ w 0 h1]
  have hupd := updateAdditions_all_even db cs.coin (compute_additions ev cs) w 0 heven
  simp only [updateRemovals, if_pos hname, hupd]
  exact updateRemovals_no_match ev db _ r2 w 0 h2

/-- The tracker state after one successful advance step: `current_state`
becomes the odd child and the lineage proof becomes
`[old_parent_id, inner_puzzle_hash, child_amount]`. -/
def advancedWallet (w : SingletonWallet) (ip : Program) (c : Coin) : SingletonWallet :=
  { w with
    lineage_proof := .ofSingleton w.current_state.parent_coin_info ip.get_tree_hash c.amount
    current_state := c }

/-- Claim C7: for a spend set containing exactly one spend consuming the
tracker's current coin, producing exactly one odd-amount child that is not
itself consumed in the set, `update_state` applied twice with the same set
returns a change count of 1 and then 0, with the tracker fixed after the first
call.  The environment hypotheses say the current coin's puzzle is known to
the puzzle db and is a two-argument curry of the singleton template — the
asserts `update_state` performs on the parent puzzle. -/
theorem update_state_idempotent_spec (ev : Evaluator) (db : PuzzleDB) (w : SingletonWallet)
    (r1 r2 : List CoinSpend) (cs : CoinSpend) (c : Coin) (st ip : Program)
    (h1 : ∀ x ∈ r1, x.coin.name ≠ w.current_state.name)
    (h2 : ∀ x ∈ r2, x.coin.name ≠ w.current_state.name)
    (hname : cs.coin.name = w.current_state.name)
    (hdb : w.current_state.puzzle_hash ∈ db)
    (hshape : w.current_state.puzzle_hash
      = .curried SINGLETON_MOD (.cons st (.cons ip Program.NIL)))
    (hodd : (compute_additions ev cs).filter (fun a => a.amount % 2 == 1) = [c])
    (hnc : ∀ x ∈ r1 ++ cs :: r2, x.coin.name ≠ c.name) :
    w.update_state ev db (r1 ++ cs :: r2) = some (advancedWallet w ip c, 1) ∧
    (advancedWallet w ip c).update_state ev db (r1 ++ cs :: r2)
      = some (advancedWallet w ip c, 0) := by
  have hspent : cs.coin = w.current_state := Coin.name_injective hname
  constructor
  · rw [SingletonWallet.update_state, updateRemovals_skip_prefix ev db _ r1 _ w 0 h1]
    have hupd := updateAdditions_single_odd db cs.coin st ip c
      (compute_additions ev cs) w 0 (by rw [hspent]) hdb hshape hodd
    simp only [updateRemovals, if_pos hname, hupd]
    exact updateRemovals_no_match ev db _ r2 _ 1 h2
  · rw [SingletonWallet.update_state]
    exact updateRemovals_no_match ev db _ _ _ 0 (by simpa [advancedWallet] using hnc)

/-- Claim C6 (amended): with pairwise-distinct coin ids and each spend
producing at most one odd-amount child — the validated-singleton input the
tracker assumes — any returned state change count is exactly 0 or 1. -/
theorem update_state_change_count_spec (ev : Evaluator) (db : PuzzleDB)
    (w : SingletonWallet) (removals : List CoinSpend) (r : SingletonWallet × Nat)
    (hdist : removals.Pairwise (fun a b => a.coin.name ≠ b.coin.name))
    (hone : ∀ cs ∈ removals,
      (compute_additions ev cs).countP (fun a => a.amount % 2 == 1) ≤ 1)
    (hres : w.update_state ev db removals = some r) :
    r.2 = 0 ∨ r.2 = 1 := by
  have hb := updateRemovals_count_le ev db w.current_state.name removals w 0 r hone hres
  have hc := countP_name_le_one w.current_state.name removals hdist
  omega

/-!  Concrete singleton scenario used by the tracker counterexample and
witnesses. -/

def innerProg : Program := .atom 5

def structProg : Program := .atom 7

def singletonPuzzle1 : Program :=
  .curried SINGLETON_MOD (.cons structProg (.cons innerProg Program.NIL))

def coin1 : Coin := ⟨.genesis 0, singletonPuzzle1, 1⟩

def wallet1 : SingletonWallet :=
  { launcher_id := .genesis 9
    launcher_puzzle_hash := LAUNCHER_PUZZLE_HASH
    key_value_list := Program.NIL
    current_state := coin1
    lineage_proof := .ofLauncher (.genesis 0) 1 }

def db1 : PuzzleDB := [singletonPuzzle1]

def spend1 : CoinSpend :=
  { coin := coin1, puzzle_reveal := singletonPuzzle1, solution := Program.NIL }

/-- An evaluator under which the spend creates two odd-amount children, both
wrapped at the same singleton puzzle hash. -/
def evTwoOdd : Evaluator := fun _ _ => [(singletonPuzzle1, 1), (singletonPuzzle1, 3)]

/-- An evaluator under which the spend creates one odd child and one even
child. -/
def evOneOdd : Evaluator := fun _ _ => [(singletonPuzzle1, 1), (.atom 50, 2)]

/-- An evaluator under which the spend creates only an even child (the melt
shape). -/
def evMelt : Evaluator := fun _ _ => [(.atom 50, 2)]

/-- The odd child the scenario spend creates. -/
def childW : Coin := ⟨coin1.name, singletonPuzzle1, 1⟩

/-- Counterexample to claim C6 as stated: a spend list with pairwise-distinct
coin ids (one spend) in which the matching spend creates two odd children
makes `update_state` return a state change count of 2. -/
theorem update_state_two_odd_counterexample :
    List.Pairwise (fun a b : CoinSpend => a.coin.name ≠ b.coin.name) [spend1] ∧
    (wallet1.update_state evTwoOdd db1 [spend1]).map (fun r => r.2) = some 2 := by
  constructor
  · simp
  · rfl

/-- Witness for C6 (amended) at the concrete one-odd-child scenario. -/
theorem update_state_change_count_spec_witness :
    ((advancedWallet wallet1 innerProg childW, 1) : SingletonWallet × Nat).2 = 0 ∨
    ((advancedWallet wallet1 innerProg childW, 1) : SingletonWallet × Nat).2 = 1 :=
  update_state_change_count_spec evOneOdd db1 wallet1 [spend1]
    (advancedWallet wallet1 innerProg childW, 1) (by simp) (by decide) (by rfl)

/-- Witness for C5 at the concrete melt scenario. -/
theorem update_state_melt_spec_witness :
    wallet1.update_state evMelt db1 ([] ++ spend1 :: []) = some (wallet1, 0) :=
  update_state_melt_spec evMelt db1 wallet1 [] [] spend1
    (by simp) (by simp) rfl (by decide)

/-- Witness for C7 at the concrete one-odd-child scenario. -/
theorem update_state_idempotent_spec_witness :
    wallet1.update_state evOneOdd db1 ([] ++ spend1 :: [])
      = some (advancedWallet wallet1 innerProg childW, 1) ∧
    (advancedWallet wallet1 innerProg childW).update_state evOneOdd db1 ([] ++ spend1 :: [])
      = some (advancedWallet wallet1 innerProg childW, 0) :=
  update_state_idempotent_spec evOneOdd db1 wallet1 [] [] spend1 childW structProg innerProg
    (by simp) (by simp) rfl (by decide) rfl (by decide) (by decide)

/-- Claim C8: `Solver.solve` resolves a builder under the program's own tree
hash; if none is registered it uncurries the program and resolves the
recovered template's tree hash, passing the recovered curry argument list to
that builder; if neither hash resolves it fails with the no-solver error.  The
result type returns the single selected builder with its argument list, so at
most one top-level builder is ever invoked. -/
theorem solver_solve_dispatch_spec {β : Type} (s : Solver β) (puzzle : Program) :
    (∀ b, s.lookup puzzle.get_tree_hash = some b → s.solve puzzle = .ok (b, [])) ∧
    (s.lookup puzzle.get_tree_hash = none →
      ∀ b, s.lookup puzzle.uncurry.1.get_tree_hash = some b →
        s.solve puzzle = .ok (b, puzzle.uncurry.2.asIter)) ∧
    (s.lookup puzzle.get_tree_hash = none →
      s.lookup puzzle.uncurry.1.get_tree_hash = none →
      s.solve puzzle = .error .noSolver) := by
  refine ⟨?_, ?_, ?_⟩
  · intro b hb
    simp [Solver.solve, hb]
  · intro hnone b hb
    simp [Solver.solve, hnone, hb]
  · intro h1 h2
    simp [Solver.solve, h1, h2]

/-- A concrete registry for the solver witness: builders are plain tags. -/
def solverW : Solver Nat := ⟨[(.atom 1, 10), (.atom 2, 20)]⟩

def puzzleOwn : Program := .atom 1

def puzzleTempl : Program := .curried (.atom 2) (.cons (.atom 3) Program.NIL)

def puzzleMiss : Program := .atom 9

/-- Witness for C8: one puzzle registered under its own hash, one resolved
through its curry template with the recovered argument, one unresolvable. -/
theorem solver_solve_dispatch_spec_witness :
    solverW.solve puzzleOwn = .ok (10, []) ∧
    solverW.solve puzzleTempl = .ok (20, [.atom 3]) ∧
    solverW.solve puzzleMiss = .error .noSolver :=
  ⟨(solver_solve_dispatch_spec solverW puzzleOwn).1 10 rfl,
   (solver_solve_dispatch_spec solverW puzzleTempl).2.1 rfl 20 rfl,
   (solver_solve_dispatch_spec solverW puzzleMiss).2.2 rfl rfl⟩

/-- Counterexample to claim C9: in the concrete singleton scenario,
`update_state` stores the lineage proof
`[parent_id, inner_puzzle_hash, child_amount]` (child amount 3), while
`lineage_proof_for_coin_spend` on the very same spend produces no proof at
all — its four-argument unpack of the two-argument singleton curry raises —
so the two are not equal. -/
theorem lineage_proof_disagreement_counterexample :
    (wallet1.update_state (fun _ _ => [(singletonPuzzle1, 3)]) db1 [spend1]).map
        (fun r => r.1.lineage_proof)
      = some (.ofSingleton (.genesis 0) innerProg.get_tree_hash 3) ∧
    lineage_proof_for_coin_spend spend1 = none ∧
    some (LineageProofValue.ofSingleton (.genesis 0) innerProg.get_tree_hash 3)
      ≠ lineage_proof_for_coin_spend spend1 := by
  refine ⟨rfl, rfl, by decide⟩

/-- Claim C9 (amended): for every non-launcher singleton spend matched by
`update_state` that produces an odd child — a spend whose puzzle reveal is the
standard two-argument curry of the singleton template — `update_state` stores
the triple (spent coin's parent id, tree hash of the second curry argument,
odd child's amount), while `lineage_proof_for_coin_spend` on the same spend
fails (it unpacks exactly four curry arguments, and would use the spent coin's
own amount): the two functions never agree on such a spend. -/
theorem lineage_proof_amended_spec (ev : Evaluator) (db : PuzzleDB) (w : SingletonWallet)
    (cs : CoinSpend) (c : Coin) (st ip : Program)
    (hname : cs.coin.name = w.current_state.name)
    (hdb : w.current_state.puzzle_hash ∈ db)
    (hshape : w.current_state.puzzle_hash
      = .curried SINGLETON_MOD (.cons st (.cons ip Program.NIL)))
    (hodd : (compute_additions ev cs).filter (fun a => a.amount % 2 == 1) = [c])
    (hreveal : cs.puzzle_reveal = cs.coin.puzzle_hash) :
    w.update_state ev db [cs] = some (advancedWallet w ip c, 1) ∧
    (advancedWallet w ip c).lineage_proof
      = .ofSingleton cs.coin.parent_coin_info ip.get_tree_hash c.amount ∧
    lineage_proof_for_coin_spend cs = none := by
  have hspent : cs.coin = w.current_state := Coin.name_injective hname
  have hph : cs.coin.puzzle_hash
      = .curried SINGLETON_MOD (.cons st (.cons ip Program.NIL)) := by
    rw [hspent]; exact hshape
  refine ⟨?_, ?_, ?_⟩
  · rw [SingletonWallet.update_state]
    have hupd := updateAdditions_single_odd db cs.coin st ip c
      (compute_additions ev cs) w 0 (by rw [hspent]) hdb hshape hodd
    simp only [updateRemovals, if_pos hname, hupd]
    rfl
  · simp [advancedWallet, hspent]
  · simp [lineage_proof_for_coin_spend, hreveal, hph, LAUNCHER_PUZZLE_HASH,
      Program.uncurry, Program.asIter, Program.NIL]

/-- Witness for C9 (amended) at the concrete one-odd-child scenario. -/
theorem lineage_proof_amended_spec_witness :
    wallet1.update_state evOneOdd db1 [spend1]
      = some (advancedWallet wallet1 innerProg childW, 1) ∧
    (advancedWallet wallet1 innerProg childW).lineage_proof
      = .ofSingleton spend1.coin.parent_coin_info innerProg.get_tree_hash childW.amount ∧
    lineage_proof_for_coin_spend spend1 = none :=
  lineage_proof_amended_spec evOneOdd db1 wallet1 spend1 childW structProg innerProg
    rfl (by decide) rfl (by decide) rfl

/-!  Pool store theorems. -/

theorem find?_append_of_none {α : Type} (p : α → Bool) :
    ∀ (l1 l2 : List α), l1.find? p = none → (l1 ++ l2).find? p = l2.find? p := by
  intro l1
  induction l1 with
  | nil => intro l2 _; rfl
  | cons a t ih =>
    intro l2 hn
    cases hpa : p a with
    | true =>
      rw [List.find?_cons_of_pos _ hpa] at hn
      cases hn
    | false =>
      rw [List.find?_cons_of_neg _ (by simp [hpa])] at hn
      rw [List.cons_append, List.find?_cons_of_neg _ (by simp [hpa])]
      exact ih l2 hn

/-- Concrete pool-store scenario: six spends for wallet 1 appended at heights
`[100, 100, 100, 101, 105, 105]`, distinct coin ids `1..6`. -/
def entryAt (cid h : Nat) : PoolLogEntry := ⟨1, cid, h, 0⟩

def poolStore6 : WalletPoolStore :=
  [entryAt 1 100, entryAt 2 100, entryAt 3 100, entryAt 4 101, entryAt 5 105, entryAt 6 105]

/-- The scenario store built by six appends from the empty store. -/
def poolBuild : Except PoolStoreErr WalletPoolStore :=
  (WalletPoolStore.add_spend [] 1 ⟨1, 0⟩ 100).bind fun s =>
  (WalletPoolStore.add_spend s 1 ⟨2, 0⟩ 100).bind fun s =>
  (WalletPoolStore.add_spend s 1 ⟨3, 0⟩ 100).bind fun s =>
  (WalletPoolStore.add_spend s 1 ⟨4, 0⟩ 101).bind fun s =>
  (WalletPoolStore.add_spend s 1 ⟨5, 0⟩ 105).bind fun s =>
  WalletPoolStore.add_spend s 1 ⟨6, 0⟩ 105


/-- Claim C1: `rollback(target_height, owner_id)` removes exactly the owner's
entries with height strictly greater than the target and keeps everything
else; and in the concrete `[100,100,100,101,105,105]` scenario (reachable by
appends from the empty store), `rollback(100)` leaves exactly the three
height-100 entries, `rollback(99)` empties the log, and after the rollback an
append at previously-used height 105 for a new coin succeeds.  The cached
peak height is the derived maximum over the remaining rows, so it is
recomputed by construction. -/
theorem wallet_pool_store_rollback_spec :
    (∀ (s : WalletPoolStore) (height wid : Nat) (e : PoolLogEntry),
      e ∈ WalletPoolStore.rollback s height wid ↔
        (e ∈ s ∧ (e.wallet_id = wid → e.height ≤ height))) ∧
    poolBuild = .ok poolStore6 ∧
    WalletPoolStore.rollback poolStore6 100 1 = [entryAt 1 100, entryAt 2 100, entryAt 3 100] ∧
    WalletPoolStore.rollback poolStore6 99 1 = [] ∧
    WalletPoolStore.add_spend (WalletPoolStore.rollback poolStore6 100 1) 1 ⟨7, 0⟩ 105
      = .ok [entryAt 1 100, entryAt 2 100, entryAt 3 100, entryAt 7 105] := by
  refine ⟨?_, rfl, rfl, rfl, rfl⟩
  intro s height wid e
  rw [WalletPoolStore.rollback, List.mem_filter]
  constructor
  · rintro ⟨hmem, hp⟩
    refine ⟨hmem, fun hw => ?_⟩
    by_contra hgt
    push_neg at hgt
    simp [hw, hgt] at hp
  · rintro ⟨hmem, himp⟩
    refine ⟨hmem, ?_⟩
    by_cases hw : e.wallet_id = wid
    · have hle := himp hw
      simp [hw, Nat.not_lt.mpr hle]
    · simp [hw]

/-- Witness for C1: the general membership characterization applied at the
concrete scenario store. -/
theorem wallet_pool_store_rollback_spec_witness :
    entryAt 1 100 ∈ WalletPoolStore.rollback poolStore6 100 1 ↔
      (entryAt 1 100 ∈ poolStore6 ∧ ((entryAt 1 100).wallet_id = 1 → (entryAt 1 100).height ≤ 100)) :=
  wallet_pool_store_rollback_spec.1 poolStore6 100 1 (entryAt 1 100)

/-- Claim C2: `add_spend` is an idempotent no-op on an identical
`(owner, coin_id, height)` triple (so appending the same triple twice yields
the same single entry); it fails with the height-conflict error when
`(owner, coin_id)` exists at a different height; it fails with the
non-monotonic-height error when the pair is fresh and the height is strictly
below the owner's peak; and a failure produces no new store, so the stored
entries are unchanged. -/
theorem wallet_pool_store_add_spend_spec :
    (∀ (s : WalletPoolStore) (wid : Nat) (spend : PoolSpend) (height : Nat) (e : PoolLogEntry),
      WalletPoolStore.findEntry s wid spend.coin_id = some e → e.height = height →
      WalletPoolStore.add_spend s wid spend height = .ok s) ∧
    (∀ (s : WalletPoolStore) (wid : Nat) (spend : PoolSpend) (height : Nat) (e : PoolLogEntry),
      WalletPoolStore.findEntry s wid spend.coin_id = some e → e.height ≠ height →
      WalletPoolStore.add_spend s wid spend height = .error .heightConflict) ∧
    (∀ (s : WalletPoolStore) (wid : Nat) (spend : PoolSpend) (height peak : Nat),
      WalletPoolStore.findEntry s wid spend.coin_id = none →
      WalletPoolStore.peak_height s wid = some peak → height < peak →
      WalletPoolStore.add_spend s wid spend height = .error .nonMonotonicHeight) ∧
    (∀ (s s2 : WalletPoolStore) (wid : Nat) (spend : PoolSpend) (height : Nat),
      WalletPoolStore.add_spend s wid spend height = .ok s2 →
      WalletPoolStore.add_spend s2 wid spend height = .ok s2) := by
  refine ⟨?_, ?_, ?_, ?_⟩
  · intro s wid spend height e hf hh
    simp [WalletPoolStore.add_spend, hf, hh]
  · intro s wid spend height e hf hh
    simp [WalletPoolStore.add_spend, hf, hh]
  · intro s wid spend height peak hf hp hlt
    simp [WalletPoolStore.add_spend, hf, hp, hlt]
  · intro s s2 wid spend height h
    cases hf : WalletPoolStore.findEntry s wid spend.coin_id with
    | some e =>
      by_cases hh : e.height = height
      · have hs2 : s2 = s := by
          simp only [WalletPoolStore.add_spend, hf, if_pos hh] at h
          exact (Except.ok.injEq _ _ ▸ h.symm)
        subst hs2
        simp [WalletPoolStore.add_spend, hf, hh]
      · simp only [WalletPoolStore.add_spend, hf, if_neg hh] at h
        cases h
    | none =>
      have hnew : WalletPoolStore.findEntry
          (s ++ [⟨wid, spend.coin_id, height, spend.payload⟩]) wid spend.coin_id
          = some ⟨wid, spend.coin_id, height, spend.payload⟩ := by
        rw [WalletPoolStore.findEntry,
          find?_append_of_none _ s _ hf]
        simp [List.find?]
      cases hp : WalletPoolStore.peak_height s wid with
      | some peak =>
        by_cases hlt : height < peak
        · simp only [WalletPoolStore.add_spend, hf, hp, if_pos hlt] at h
          cases h
        · have hs2 : s2 = s ++ [⟨wid, spend.coin_id, height, spend.payload⟩] := by
            simp only [WalletPoolStore.add_spend, hf, hp, if_neg hlt] at h
            exact (Except.ok.injEq _ _ ▸ h.symm)
          subst hs2
          simp [WalletPoolStore.add_spend, hnew]
      | none =>
        have hs2 : s2 = s ++ [⟨wid, spend.coin_id, height, spend.payload⟩] := by
          simp only [WalletPoolStore.add_spend, hf, hp] at h
          exact (Except.ok.injEq _ _ ▸ h.symm)
        subst hs2
        simp [WalletPoolStore.add_spend, hnew]

/-- Witness for C2: the four behaviours of `add_spend` at the concrete
scenario store — no-op re-append of an existing triple, height conflict on
coin 1, non-monotonic append of a fresh coin below the peak, and the
idempotent double append of a fresh coin. -/
theorem wallet_pool_store_add_spend_spec_witness :
    WalletPoolStore.add_spend poolStore6 1 ⟨1, 0⟩ 100 = .ok poolStore6 ∧
    WalletPoolStore.add_spend poolStore6 1 ⟨1, 0⟩ 101 = .error .heightConflict ∧
    WalletPoolStore.add_spend poolStore6 1 ⟨9, 0⟩ 99 = .error .nonMonotonicHeight ∧
    WalletPoolStore.add_spend (poolStore6 ++ [entryAt 8 105]) 1 ⟨8, 0⟩ 105
      = .ok (poolStore6 ++ [entryAt 8 105]) :=
  ⟨wallet_pool_store_add_spend_spec.1 poolStore6 1 ⟨1, 0⟩ 100 (entryAt 1 100) rfl rfl,
   wallet_pool_store_add_spend_spec.2.1 poolStore6 1 ⟨1, 0⟩ 101 (entryAt 1 100) rfl (by decide),
   wallet_pool_store_add_spend_spec.2.2.1 poolStore6 1 ⟨9, 0⟩ 99 105 rfl rfl (by decide),
   wallet_pool_store_add_spend_spec.2.2.2 poolStore6 (poolStore6 ++ [entryAt 8 105]) 1 ⟨8, 0⟩ 105 rfl⟩
